import Mathlib

/-!
Shallow embedding of the motor activation scheduler of the `bb` repository
(`src/motor_controller.py`, `src/real_motor_controller.py`).

Time values (Python float seconds) are modelled as integers `ℤ` counting
tenths of a second, so the source's constants translate as:
cooldown `0.2 s` ↦ `2`, fixed deactivation delay `0.1 s` ↦ `1`, random
duration range `[0.1 s, 0.3 s]` ↦ `[1, 3]`.  Every claim here is about the
ordering and arithmetic of times, which is preserved by this scaling.

Python dicts keyed by motor id are modelled as association lists with
insert-or-replace semantics (`alistInsert`) and key deletion
(`alistErase`); Python sets of motor ids are modelled as duplicate-free
lists.  Implicit reads of the wall clock (`time.time()`) and draws of
`random.uniform(0.1, 0.3)` are threaded explicitly as parameters (`wall`,
`dur`), and hardware sink calls that may raise are threaded as boolean
oracles (`true` = the call returned, `false` = it raised).
-/

/-- The time axis: tenths of a second. -/
abbrev Time : Type := ℤ

/-- Insert-or-replace for an association list, mirroring `d[k] = v` on a
Python dict (replacement keeps the key's original position). -/
def alistInsert (k : Nat) (v : Time) : List (Nat × Time) → List (Nat × Time)
  | [] => [(k, v)]
  | (k', v') :: rest => if k' = k then (k, v) :: rest else (k', v') :: alistInsert k v rest

/-- Dict lookup, mirroring `d.get(k)` / `d[k]` on a Python dict. -/
def alookup (k : Nat) : List (Nat × Time) → Option Time
  | [] => none
  | (k', v) :: rest => if k' = k then some v else alookup k rest

/-- Key deletion for an association list, mirroring `del d[k]`. -/
def alistErase (k : Nat) : List (Nat × Time) → List (Nat × Time)
  | [] => []
  | (k', v') :: rest => if k' = k then rest else (k', v') :: alistErase k rest

/-- The keys of an association list. -/
def alistKeys (a : List (Nat × Time)) : List Nat := a.map Prod.fst

/-- The character string enumerated by `DummyMotorController.__init__`
(`motor_controller.py` lines 20-22). -/
def alphabet : List Char := "abcdefghijklmnopqrstuvwxyz0123456789".toList

/-- The computed character-to-motor map of `DummyMotorController` (and of
`real_motor_controller.RealMotorController`): each character of the
alphabet string is assigned `index mod 32`. -/
def motorMapList : List (Char × Nat) :=
  alphabet.enum.map (fun p => (p.2, p.1 % 32))

/-- `_get_motor_for_char`: lower-case the character, then look it up in the
computed map (`dict.get` returns `None` when absent). -/
def getMotorForChar (c : Char) : Option Nat :=
  motorMapList.lookup c.toLower

/-- Stable insertion into a list sorted by scheduled time (second
component).  An element with an equal time goes after the existing ones,
matching the stability of Python's `list.sort(key=lambda x: x[1])`. -/
def insertTimed (p : Nat × Time) : List (Nat × Time) → List (Nat × Time)
  | [] => [p]
  | q :: rest => if p.2 ≤ q.2 then p :: q :: rest else q :: insertTimed p rest

/-- Stable sort by scheduled time, modelling
`self.motor_queue.sort(key=lambda x: x[1])`. -/
def sortByTime (l : List (Nat × Time)) : List (Nat × Time) := l.foldr insertTimed []

/-- State of `DummyMotorController`: `active_motors` is the dict of active
motor → end time, `motor_queue` the list of pending
`(motor_id, activation_time)` pairs. -/
structure DummyState where
  active_motors : List (Nat × Time)
  motor_queue : List (Nat × Time)
  deriving DecidableEq, Repr

/-- The initial state: both containers empty. -/
def DummyState.init : DummyState := ⟨[], []⟩

/-- The post-resolution body of `activate_for_char` (lines 31-35): append
the event and re-sort the queue by activation time. -/
def DummyState.enqueue (s : DummyState) (m : Nat) (t : Time) : DummyState :=
  { s with motor_queue := sortByTime (s.motor_queue ++ [(m, t)]) }

/-- `DummyMotorController.activate_for_char`: resolve the character; if it
has no motor, return unchanged; otherwise enqueue. -/
def DummyState.activate_for_char (s : DummyState) (c : Char) (char_time : Time) : DummyState :=
  match getMotorForChar c with
  | none => s
  | some m => s.enqueue m char_time

/-- `DummyMotorController.activate_for_chars`: early return on an empty
batch, otherwise append every resolvable character's event and sort once. -/
def DummyState.activate_for_chars (s : DummyState) (l : List (Char × Time)) : DummyState :=
  if l = [] then s
  else { s with motor_queue :=
          sortByTime (s.motor_queue ++
            l.filterMap (fun p => (getMotorForChar p.1).map (fun m => (m, p.2)))) }

/-- The queue entries due at `now` (`current_time >= activation_time`),
in queue order — the `motors_to_activate` pass of `update` keeps exactly
these (lines 74-78). -/
def DummyState.dueList (s : DummyState) (now : Time) : List (Nat × Time) :=
  s.motor_queue.filter (fun p => now ≥ p.2)

/-- The activation pass of `update` (lines 83-85): every due motor, in
queue order, gets `_activate_motor`, which records
`active_motors[m] = time.time() + duration` — a dict insert-or-replace
whose i-th call reads wall time `wall` and draws duration `dur i`. -/
def DummyState.activeAfterInserts (s : DummyState) (now wall : Time) (dur : Nat → Time) :
    List (Nat × Time) :=
  ((s.dueList now).map Prod.fst).enum.foldl
    (fun a q => alistInsert q.2 (wall + dur q.1) a) s.active_motors

/-- `DummyMotorController.update(current_time)`.  `wall` is the value
`time.time()` returns inside `_activate_motor` during this call (the
source reads the wall clock there, not `current_time`); `dur i` is the
i-th draw of `random.uniform(0.1, 0.3)`.  Due queue entries are activated
in order, then every active motor with `current_time >= end_time` is
deleted. -/
def DummyState.update (s : DummyState) (now wall : Time) (dur : Nat → Time) : DummyState :=
  let active1 := s.activeAfterInserts now wall dur
  let motors_to_deactivate := (active1.filter (fun p => now ≥ p.2)).map Prod.fst
  { active_motors := motors_to_deactivate.foldl (fun a m => alistErase m a) active1,
    motor_queue := s.motor_queue.filter (fun p => ¬ now ≥ p.2) }

/-- The hard-coded `char_to_motor` dict shared by `RealMotorController`
(`motor_controller.py` lines 107-113) and `OptimizedMotorController`
(lines 205-211).  `' '` is mapped to `None` (no motor). -/
def char_to_motor : List (Char × Option Nat) :=
  [('a', some 0), ('b', some 1), ('c', some 2), ('d', some 3),
   ('e', some 4), ('f', some 5), ('g', some 6), ('h', some 7),
   ('i', some 8), ('j', some 9), ('k', some 10), ('l', some 11),
   ('m', some 12), ('n', some 13), ('o', some 14), ('p', some 15),
   ('q', some 16), ('r', some 17), ('s', some 18), ('t', some 19),
   ('u', some 20), ('v', some 21), ('w', some 22), ('x', some 23),
   ('y', some 24), ('z', some 25), ('1', some 26), ('2', some 27),
   ('3', some 28), ('4', some 29), ('5', some 30), ('6', some 31),
   ('7', some 0), ('8', some 1), ('9', some 2), ('0', some 3),
   (' ', none)]

/-- Character resolution of the hard-coded variants: lower-case, then the
guard `if char not in self.char_to_motor or self.char_to_motor[char] is
None: return` makes both an absent key and a `None` value resolve to no
motor. -/
def optResolveChar (c : Char) : Option Nat :=
  match char_to_motor.lookup c.toLower with
  | some (some m) => some m
  | some none => none
  | none => none

/-- The debounce guard shared by the hardware-facing variants
(`motor_controller.py` lines 244-247 and 161-165): the activation is
blocked when the motor has a recorded last activation and
`now - last < 0.2 s` (scaled: `< 2`). -/
def debounceBlocked (last_activation : List (Nat × Time)) (m : Nat) (now : Time) : Bool :=
  match alookup m last_activation with
  | some last => now - last < 2
  | none => false

/-- Insertion into a Python set modelled as a duplicate-free list:
`s.add(x)` is a no-op when the element is present. -/
def setAdd (m : Nat) (l : List Nat) : List Nat :=
  if m ∈ l then l else l ++ [m]

/-- Insertion into the `heapq` priority queue of `(deactivation_time,
motor_id)` pairs, modelled as a list sorted by the lexicographic tuple
order that `heapq` pops in. -/
def heapInsert (p : Time × Nat) : List (Time × Nat) → List (Time × Nat)
  | [] => [p]
  | q :: rest =>
    if p.1 < q.1 ∨ (p.1 = q.1 ∧ p.2 ≤ q.2) then p :: q :: rest else q :: heapInsert p rest

/-- State of `OptimizedMotorController`: debounce records, the set of
active motors, and the deactivation priority queue. -/
structure OptState where
  last_activation : List (Nat × Time)
  active_motors : List Nat
  deactivation_queue : List (Time × Nat)
  deriving DecidableEq, Repr

/-- The initial `OptimizedMotorController` state: everything empty. -/
def OptState.init : OptState := ⟨[], [], []⟩

/-- `OptimizedMotorController.activate_for_char` (lines 233-264).  `now`
is the `time.time()` read at line 243.  The second component reports
whether the energize path was taken (the log line, the `active_motors`
insertion and the scheduled deactivation).  An unresolvable character or
a debounced motor returns with the state unchanged. -/
def OptState.activateC (s : OptState) (c : Char) (now : Time) : OptState × Bool :=
  match optResolveChar c with
  | none => (s, false)
  | some m =>
    if debounceBlocked s.last_activation m now then (s, false)
    else
      ({ last_activation := alistInsert m now s.last_activation,
         active_motors := setAdd m s.active_motors,
         deactivation_queue := heapInsert (now + 1, m) s.deactivation_queue }, true)

/-- `OptimizedMotorController.activate_for_char`, state part only. -/
def OptState.activate_for_char (s : OptState) (c : Char) (now : Time) : OptState :=
  (s.activateC c now).1

/-- The `while` loop of `OptimizedMotorController.update` (lines 271-283):
pop every heap entry with `deactivation_time <= current_time`; remove the
popped motor from `active_motors` when it is still there. -/
def optDrain (active : List Nat) (q : List (Time × Nat)) (now : Time) :
    List Nat × List (Time × Nat) :=
  match q with
  | [] => (active, [])
  | (t, m) :: rest =>
    if t ≤ now then optDrain (active.erase m) rest now else (active, (t, m) :: rest)

/-- `OptimizedMotorController.update`; `now` is the `time.time()` read at
line 268. -/
def OptState.update (s : OptState) (now : Time) : OptState :=
  { s with active_motors := (optDrain s.active_motors s.deactivation_queue now).1,
           deactivation_queue := (optDrain s.active_motors s.deactivation_queue now).2 }

/-- `RealMotorController.activate_for_char` of `motor_controller.py`
(lines 150-185), restricted to the state it mutates (`last_activation`)
plus an energize flag.  `numBoards` is `len(self.boards)`; the motor is
physically energized (throttle set, deactivation thread started) only when
`board_idx < len(self.boards)`, but `last_activation` is recorded as soon
as the debounce passes. -/
def realV1ActivateC (last_activation : List (Nat × Time)) (c : Char) (now : Time)
    (numBoards : Nat) : List (Nat × Time) × Bool :=
  match optResolveChar c with
  | none => (last_activation, false)
  | some m =>
    if debounceBlocked last_activation m now then (last_activation, false)
    else (alistInsert m now last_activation, decide (m / 4 < numBoards))

/-- A hardware sink call that either returns or raises, driven by a
boolean oracle. -/
def setThrottle (ok : Bool) : Except Unit Unit :=
  if ok then Except.ok () else Except.error ()

/-- State of `real_motor_controller.RealMotorController`:
`hardware_available` and `numMotors` (`len(self.motors)`) are fixed at
construction; `active_motors` and `motor_queue` are as in the dummy
variant. -/
structure RealState where
  hardware_available : Bool
  numMotors : Nat
  active_motors : List (Nat × Time)
  motor_queue : List (Nat × Time)
  deriving DecidableEq, Repr

/-- `RealMotorController.activate_for_char`
(`real_motor_controller.py` lines 57-68): identical to the dummy
variant's, against the computed map. -/
def RealState.activate_for_char (s : RealState) (c : Char) (char_time : Time) : RealState :=
  match getMotorForChar c with
  | none => s
  | some m => { s with motor_queue := sortByTime (s.motor_queue ++ [(m, char_time)]) }

/-- `RealMotorController._activate_motor` (lines 89-105): early return
when hardware is unavailable or the motor index is out of range; then
`try: throttle = 1.0; ... active_motors[m] = wall + duration` with the
whole body guarded by `except` — if the throttle assignment raises, the
recording line is never reached and the exception is logged. -/
def RealState.activate_motor (s : RealState) (m : Nat) (wall d : Time) (ok : Bool) : RealState :=
  if ¬ s.hardware_available ∨ m ≥ s.numMotors then s
  else
    match setThrottle ok with
    | Except.error _ => s
    | Except.ok _ => { s with active_motors := alistInsert m (wall + d) s.active_motors }

/-- `RealMotorController._deactivate_motor` (lines 107-117): the guarded
throttle-to-zero call mutates no controller state whether it returns or
raises (the `except` only logs). -/
def RealState.deactivate_motor (s : RealState) (m : Nat) (ok : Bool) : RealState :=
  if ¬ s.hardware_available ∨ m ≥ s.numMotors then s
  else
    match setThrottle ok with
    | Except.error _ => s
    | Except.ok _ => s

/-- `RealMotorController.update` (lines 131-162).  `wall` is the
`time.time()` read inside `_activate_motor`, `dur i` the i-th duration
draw, `aOk i` / `dOk i` whether the i-th activation / deactivation
throttle call returns or raises.  Due queue entries are activated in
order; then every active motor with `current_time >= end_time` has
`_deactivate_motor` called on it and is deleted from `active_motors`
unconditionally (the `del` is outside the sink's `try`). -/
def RealState.update (s : RealState) (now wall : Time) (dur : Nat → Time)
    (aOk dOk : Nat → Bool) : RealState :=
  let motors_to_activate := (s.motor_queue.filter (fun p => now ≥ p.2)).map Prod.fst
  let remaining_queue := s.motor_queue.filter (fun p => ¬ now ≥ p.2)
  let s1 := { s with motor_queue := remaining_queue }
  let s2 := motors_to_activate.enum.foldl
    (fun t q => t.activate_motor q.2 wall (dur q.1) (aOk q.1)) s1
  let motors_to_deactivate := (s2.active_motors.filter (fun p => now ≥ p.2)).map Prod.fst
  motors_to_deactivate.enum.foldl
    (fun t q =>
      let t' := t.deactivate_motor q.2 (dOk q.1)
      { t' with active_motors := alistErase q.2 t'.active_motors }) s2


/-! ### Tick sequences over the dummy controller -/

/-- Run a sequence of `update` calls; each tick is a pair
`(current_time, wall_clock)`. -/
def DummyState.runTicks (s : DummyState) (ticks : List (Time × Time)) (dur : Nat → Time) :
    DummyState :=
  match ticks with
  | [] => s
  | (now, wall) :: ts => (s.update now wall dur).runTicks ts dur

/-- The `(motor_id, scheduled_time)` pairs energized by a sequence of
`update` calls, in activation order: each tick energizes exactly its due
queue entries. -/
def DummyState.energizedLog (s : DummyState) (ticks : List (Time × Time)) (dur : Nat → Time) :
    List (Nat × Time) :=
  match ticks with
  | [] => []
  | (now, wall) :: ts => s.dueList now ++ (s.update now wall dur).energizedLog ts dur


/-! ### Operation sequences -/

/-- An externally invokable operation of `DummyMotorController`. -/
inductive DummyOp : Type
  | afc (c : Char) (t : Time)
  | afcs (l : List (Char × Time))
  | enq (m : Nat) (t : Time)
  | upd (now wall : Time) (dur : Nat → Time)

/-- Dispatch one operation on a `DummyMotorController` state. -/
def DummyState.exec (s : DummyState) : DummyOp → DummyState
  | DummyOp.afc c t => s.activate_for_char c t
  | DummyOp.afcs l => s.activate_for_chars l
  | DummyOp.enq m t => s.enqueue m t
  | DummyOp.upd now wall dur => s.update now wall dur

/-- Run a sequence of operations from a state. -/
def DummyState.execList (s : DummyState) (ops : List DummyOp) : DummyState :=
  ops.foldl DummyState.exec s

/-- An externally invokable operation of `OptimizedMotorController`. -/
inductive OptOp : Type
  | afc (c : Char) (now : Time)
  | upd (now : Time)

/-- Dispatch one operation on an `OptimizedMotorController` state. -/
def OptState.exec (s : OptState) : OptOp → OptState
  | OptOp.afc c now => s.activate_for_char c now
  | OptOp.upd now => s.update now

/-- Run a sequence of operations from a state. -/
def OptState.execList (s : OptState) (ops : List OptOp) : OptState :=
  ops.foldl OptState.exec s

/-! ### Association list lemmas -/

theorem mem_alistKeys_insert {x k : Nat} {v : Time} {a : List (Nat × Time)} :
    x ∈ alistKeys (alistInsert k v a) ↔ x = k ∨ x ∈ alistKeys a := by
  induction a with
  | nil => simp [alistInsert, alistKeys]
  | cons hd tl ih =>
    obtain ⟨k', v'⟩ := hd
    by_cases h : k' = k
    · subst h
      constructor
      · intro hmem
        rcases (by simpa [alistInsert, alistKeys] using hmem) with h1 | h1
        · exact Or.inl h1
        · exact Or.inr (by simp [alistKeys]; tauto)
      · intro hmem
        simp [alistKeys, alistInsert] at hmem ⊢
        tauto
    · simp only [alistInsert, h, if_false, alistKeys, List.map_cons, List.mem_cons]
      simp only [alistKeys] at ih
      rw [ih]
      tauto

theorem nodup_alistKeys_insert {k : Nat} {v : Time} {a : List (Nat × Time)}
    (h : (alistKeys a).Nodup) : (alistKeys (alistInsert k v a)).Nodup := by
  induction a with
  | nil => simp [alistInsert, alistKeys]
  | cons hd tl ih =>
    obtain ⟨k', v'⟩ := hd
    simp only [alistKeys, List.map_cons, List.nodup_cons] at h
    by_cases hk : k' = k
    · subst hk
      simpa [alistInsert, alistKeys] using h
    · simp only [alistInsert, hk, if_false, alistKeys, List.map_cons, List.nodup_cons]
      refine ⟨fun hmem => ?_, ih h.2⟩
      rcases mem_alistKeys_insert.mp hmem with h1 | h1
      · exact hk h1
      · exact h.1 h1

theorem alookup_alistInsert_self {k : Nat} {v : Time} {a : List (Nat × Time)} :
    alookup k (alistInsert k v a) = some v := by
  induction a with
  | nil => simp [alistInsert, alookup]
  | cons hd tl ih =>
    obtain ⟨k', v'⟩ := hd
    by_cases h : k' = k
    · subst h; simp [alistInsert, alookup]
    · simp [alistInsert, h, alookup, ih]

theorem alookup_alistInsert_ne {k k' : Nat} {v : Time} {a : List (Nat × Time)}
    (h : k' ≠ k) : alookup k' (alistInsert k v a) = alookup k' a := by
  induction a with
  | nil => simp [alistInsert, alookup, Ne.symm h]
  | cons hd tl ih =>
    obtain ⟨k₀, v₀⟩ := hd
    by_cases hk : k₀ = k
    · subst hk; simp [alistInsert, alookup, Ne.symm h]
    · by_cases hk' : k₀ = k'
      · subst hk'; simp [alistInsert, hk, alookup]
      · simp [alistInsert, hk, alookup, hk', ih]

theorem alookup_eq_none_of_not_mem_keys {k : Nat} {a : List (Nat × Time)}
    (h : k ∉ alistKeys a) : alookup k a = none := by
  induction a with
  | nil => rfl
  | cons hd tl ih =>
    obtain ⟨k', v'⟩ := hd
    simp only [alistKeys, List.map_cons, List.mem_cons] at h
    push_neg at h
    simp [alookup, Ne.symm h.1, ih h.2]

theorem mem_of_alookup_eq_some {k : Nat} {v : Time} {a : List (Nat × Time)}
    (h : alookup k a = some v) : (k, v) ∈ a := by
  induction a with
  | nil => simp [alookup] at h
  | cons hd tl ih =>
    obtain ⟨k', v'⟩ := hd
    by_cases hk : k' = k
    · subst hk
      simp only [alookup, if_true, eq_self_iff_true, Option.some.injEq] at h
      subst h
      exact List.mem_cons_self _ _
    · rw [alookup, if_neg hk] at h
      exact List.mem_cons_of_mem _ (ih h)

theorem alistErase_eq_filter {k : Nat} {a : List (Nat × Time)}
    (h : (alistKeys a).Nodup) : alistErase k a = a.filter (fun p => p.1 ≠ k) := by
  induction a with
  | nil => simp [alistErase]
  | cons hd tl ih =>
    obtain ⟨k', v'⟩ := hd
    simp only [alistKeys, List.map_cons, List.nodup_cons] at h
    by_cases hk : k' = k
    · subst hk
      have hsalf : tl.filter (fun p : Nat × Time => p.1 ≠ k') = tl := by
        refine List.filter_eq_self.mpr (fun p hp => ?_)
        have hne : p.1 ≠ k' := fun he => h.1 (he ▸ List.mem_map_of_mem Prod.fst hp)
        simpa using hne
      have e1 : alistErase k' ((k', v') :: tl) = tl := by simp [alistErase]
      have e2 : List.filter (fun p : Nat × Time => p.1 ≠ k') ((k', v') :: tl)
          = List.filter (fun p : Nat × Time => p.1 ≠ k') tl := by
        simp [List.filter_cons]
      rw [e1, e2, hsalf]
    · simp [alistErase, hk, List.filter_cons, ih h.2]

theorem alistKeys_erase_sublist {k : Nat} {a : List (Nat × Time)} :
    (alistKeys (alistErase k a)).Sublist (alistKeys a) := by
  induction a with
  | nil => simp [alistErase]
  | cons hd tl ih =>
    obtain ⟨k', v'⟩ := hd
    by_cases hk : k' = k
    · subst hk
      simp [alistErase, alistKeys]
    · simpa [alistErase, hk, alistKeys] using ih.cons₂ k'

theorem nodup_alistKeys_erase {k : Nat} {a : List (Nat × Time)}
    (h : (alistKeys a).Nodup) : (alistKeys (alistErase k a)).Nodup :=
  h.sublist alistKeys_erase_sublist

theorem foldl_alistErase_eq_filter {ks : List Nat} {a : List (Nat × Time)}
    (h : (alistKeys a).Nodup) :
    ks.foldl (fun x m => alistErase m x) a = a.filter (fun p => p.1 ∉ ks) := by
  induction ks generalizing a with
  | nil => simp
  | cons k ks ih =>
    have h' : (alistKeys (alistErase k a)).Nodup := nodup_alistKeys_erase h
    calc (k :: ks).foldl (fun x m => alistErase m x) a
        = ks.foldl (fun x m => alistErase m x) (alistErase k a) := rfl
      _ = (alistErase k a).filter (fun p => p.1 ∉ ks) := ih h'
      _ = (a.filter (fun p => p.1 ≠ k)).filter (fun p => p.1 ∉ ks) := by
          rw [alistErase_eq_filter h]
      _ = a.filter (fun p => p.1 ∉ k :: ks) := by
          rw [List.filter_filter]
          refine List.filter_congr (fun p _ => ?_)
          by_cases h1 : p.1 = k <;> by_cases h2 : p.1 ∈ ks <;> simp [h1, h2]

theorem alistKeys_nodup_inj {a : List (Nat × Time)} (h : (alistKeys a).Nodup)
    {p q : Nat × Time} (hp : p ∈ a) (hq : q ∈ a) (hpq : p.1 = q.1) : p = q := by
  induction a with
  | nil => cases hp
  | cons hd tl ih =>
    simp only [alistKeys, List.map_cons, List.nodup_cons] at h
    rcases List.mem_cons.mp hp with rfl | hp' <;> rcases List.mem_cons.mp hq with rfl | hq'
    · rfl
    · exact absurd (hpq ▸ List.mem_map_of_mem Prod.fst hq') h.1
    · exact absurd (hpq.symm ▸ List.mem_map_of_mem Prod.fst hp') h.1
    · exact ih h.2 hp' hq'

theorem alookup_filter_of_keep {k : Nat} {v : Time} {P : Nat × Time → Bool}
    {a : List (Nat × Time)} (h : alookup k a = some v) (hP : P (k, v) = true) :
    alookup k (a.filter P) = some v := by
  induction a with
  | nil => simp [alookup] at h
  | cons hd tl ih =>
    obtain ⟨k', v'⟩ := hd
    by_cases hk : k' = k
    · subst hk
      simp only [alookup, if_true, eq_self_iff_true, Option.some.injEq] at h
      subst h
      simp [List.filter_cons, hP, alookup]
    · rw [alookup, if_neg hk] at h
      by_cases hPk : P (k', v')
      · simpa [List.filter_cons, hPk, alookup, hk] using ih h
      · simpa [List.filter_cons, hPk] using ih h

theorem alookup_filter_of_drop {k : Nat} {v : Time} {P : Nat × Time → Bool}
    {a : List (Nat × Time)} (hnd : (alistKeys a).Nodup)
    (h : alookup k a = some v) (hP : P (k, v) = false) :
    alookup k (a.filter P) = none := by
  apply alookup_eq_none_of_not_mem_keys
  intro hmem
  obtain ⟨p, hp, hpk⟩ := List.mem_map.mp hmem
  have hpa : p ∈ a := List.mem_of_mem_filter hp
  have hpkv : p = (k, v) :=
    alistKeys_nodup_inj hnd hpa (mem_of_alookup_eq_some h) (by simpa using hpk)
  subst hpkv
  have := List.of_mem_filter hp
  rw [hP] at this
  cases this

/-! ### Sorting lemmas -/

/-- The queue ordering invariant: scheduled times are non-decreasing. -/
def TimeSorted (l : List (Nat × Time)) : Prop :=
  l.Pairwise (fun a b => a.2 ≤ b.2)

theorem insertTimed_perm (p : Nat × Time) (l : List (Nat × Time)) :
    (insertTimed p l).Perm (p :: l) := by
  induction l with
  | nil => simp [insertTimed]
  | cons q rest ih =>
    by_cases h : p.2 ≤ q.2
    · simp [insertTimed, h]
    · simp only [insertTimed, h, if_false]
      exact (ih.cons q).trans (List.Perm.swap p q rest)

theorem mem_insertTimed {x p : Nat × Time} {l : List (Nat × Time)} :
    x ∈ insertTimed p l ↔ x = p ∨ x ∈ l := by
  have := (insertTimed_perm p l).mem_iff (a := x)
  simpa using this

theorem timeSorted_insertTimed {p : Nat × Time} {l : List (Nat × Time)}
    (h : TimeSorted l) : TimeSorted (insertTimed p l) := by
  induction l with
  | nil => simp [insertTimed, TimeSorted]
  | cons q rest ih =>
    rcases (List.pairwise_cons.mp h) with ⟨hq, hrest⟩
    by_cases hpq : p.2 ≤ q.2
    · simp only [insertTimed, hpq, if_true]
      refine List.pairwise_cons.mpr ⟨?_, h⟩
      intro x hx
      rcases List.mem_cons.mp hx with rfl | hx'
      · exact hpq
      · exact le_trans hpq (hq x hx')
    · simp only [insertTimed, hpq, if_false]
      refine List.pairwise_cons.mpr ⟨?_, ih hrest⟩
      intro x hx
      rcases mem_insertTimed.mp hx with rfl | hx'
      · exact le_of_not_le hpq
      · exact hq x hx'

theorem sortByTime_perm (l : List (Nat × Time)) : (sortByTime l).Perm l := by
  induction l with
  | nil => simp [sortByTime]
  | cons p rest ih =>
    have h1 : (insertTimed p (sortByTime rest)).Perm (p :: sortByTime rest) :=
      insertTimed_perm _ _
    exact h1.trans (ih.cons p)

theorem timeSorted_sortByTime (l : List (Nat × Time)) : TimeSorted (sortByTime l) := by
  induction l with
  | nil => exact List.Pairwise.nil
  | cons p rest ih => exact timeSorted_insertTimed ih

theorem TimeSorted.filter {l : List (Nat × Time)} (h : TimeSorted l)
    (P : Nat × Time → Bool) : TimeSorted (l.filter P) :=
  List.Pairwise.sublist (List.filter_sublist l) h

/-- Splitting a time-sorted queue at an earlier bound: the events due by
`tN` are the events due by `t1` followed by the strictly-later events due
by `tN`. -/
theorem filter_le_split {q : List (Nat × Time)} (hs : TimeSorted q) {t1 tN : Time}
    (h : t1 ≤ tN) :
    q.filter (fun p => tN ≥ p.2) =
      q.filter (fun p => t1 ≥ p.2) ++
        (q.filter (fun p => ¬ t1 ≥ p.2)).filter (fun p => tN ≥ p.2) := by
  induction q with
  | nil => simp
  | cons hd tl ih =>
    rcases (List.pairwise_cons.mp hs) with ⟨hhd, htl⟩
    by_cases h1 : t1 ≥ hd.2
    · have hN : tN ≥ hd.2 := le_trans h1 h
      simp only [List.filter_cons]
      rw [if_pos (by simpa using hN), if_pos (by simpa using h1),
        if_neg (by simpa using h1)]
      simpa using ih htl
    · have htl1 : tl.filter (fun p : Nat × Time => t1 ≥ p.2) = [] := by
        refine List.filter_eq_nil_iff.mpr (fun p hp => ?_)
        have : hd.2 ≤ p.2 := hhd p hp
        simp only [ge_iff_le, decide_eq_true_eq]
        intro hc
        exact h1 (le_trans this hc)
      have htl2 : tl.filter (fun p : Nat × Time => ¬ t1 ≥ p.2) = tl := by
        refine List.filter_eq_self.mpr (fun p hp => ?_)
        have : hd.2 ≤ p.2 := hhd p hp
        simp only [ge_iff_le, decide_not, Bool.not_eq_true', decide_eq_false_iff_not]
        intro hc
        exact h1 (le_trans this hc)
      have hq1 : (hd :: tl).filter (fun p : Nat × Time => t1 ≥ p.2) = [] := by
        rw [List.filter_cons, if_neg (by simpa using h1), htl1]
      have hq2 : (hd :: tl).filter (fun p : Nat × Time => ¬ t1 ≥ p.2) = hd :: tl := by
        rw [List.filter_cons, if_pos (by simpa using h1), htl2]
      rw [hq1, hq2]
      simp

/-! ### Characterization of `DummyState.update` -/

theorem update_motor_queue (s : DummyState) (now wall : Time) (dur : Nat → Time) :
    (s.update now wall dur).motor_queue = s.motor_queue.filter (fun p => ¬ now ≥ p.2) := rfl

theorem dueList_mem_le {s : DummyState} {now : Time} {p : Nat × Time}
    (h : p ∈ s.dueList now) : p.2 ≤ now := by
  have := List.of_mem_filter h
  simpa using this

theorem nodup_foldl_alistInsert {β : Type} (key : β → Nat) (val : β → Time) :
    ∀ (l : List β) (a : List (Nat × Time)), (alistKeys a).Nodup →
      (alistKeys (l.foldl (fun x q => alistInsert (key q) (val q) x) a)).Nodup := by
  intro l
  induction l with
  | nil => intro a h; simpa using h
  | cons q rest ih =>
    intro a h
    exact ih (alistInsert (key q) (val q) a) (nodup_alistKeys_insert h)

theorem nodup_activeAfterInserts {s : DummyState} {now wall : Time} {dur : Nat → Time}
    (h : (alistKeys s.active_motors).Nodup) :
    (alistKeys (s.activeAfterInserts now wall dur)).Nodup :=
  nodup_foldl_alistInsert (fun q : Nat × Nat => q.2) (fun q => wall + dur q.1) _ _ h

theorem update_active_char {s : DummyState} {now wall : Time} {dur : Nat → Time}
    (h : (alistKeys s.active_motors).Nodup) :
    (s.update now wall dur).active_motors =
      (s.activeAfterInserts now wall dur).filter (fun p => ¬ now ≥ p.2) := by
  have hA : (alistKeys (s.activeAfterInserts now wall dur)).Nodup :=
    nodup_activeAfterInserts h
  show (((s.activeAfterInserts now wall dur).filter
      (fun p => now ≥ p.2)).map Prod.fst).foldl (fun a m => alistErase m a)
      (s.activeAfterInserts now wall dur) = _
  rw [foldl_alistErase_eq_filter hA]
  refine List.filter_congr (fun p hp => ?_)
  have hiff : (p.1 ∈ ((s.activeAfterInserts now wall dur).filter
      (fun q => now ≥ q.2)).map Prod.fst) ↔ now ≥ p.2 := by
    constructor
    · intro hmem
      obtain ⟨q, hq, hqp⟩ := List.mem_map.mp hmem
      have hq1 : q ∈ s.activeAfterInserts now wall dur := List.mem_of_mem_filter hq
      have hq2 : now ≥ q.2 := by simpa using List.of_mem_filter hq
      have : q = p := alistKeys_nodup_inj hA hq1 hp hqp
      exact this ▸ hq2
    · intro hge
      exact List.mem_map_of_mem Prod.fst (List.mem_filter.mpr ⟨hp, by simpa using hge⟩)
  by_cases hc : now ≥ p.2
  · simp [hiff.mpr hc, hc]
  · have : p.1 ∉ ((s.activeAfterInserts now wall dur).filter
        (fun q => now ≥ q.2)).map Prod.fst := fun hmem => hc (hiff.mp hmem)
    simp [this, hc]

theorem nodup_update_active {s : DummyState} {now wall : Time} {dur : Nat → Time}
    (h : (alistKeys s.active_motors).Nodup) :
    (alistKeys ((s.update now wall dur).active_motors)).Nodup := by
  rw [update_active_char h]
  exact (nodup_activeAfterInserts h).sublist
    ((List.filter_sublist _).map Prod.fst)

theorem mem_update_active_not_due {s : DummyState} {now wall : Time} {dur : Nat → Time}
    {p : Nat × Time} (h : (alistKeys s.active_motors).Nodup)
    (hp : p ∈ (s.update now wall dur).active_motors) : ¬ now ≥ p.2 := by
  rw [update_active_char h] at hp
  simpa using List.of_mem_filter hp

/-- Calling `DummyMotorController.update` twice with the same
`current_time` is a no-op the second time, whatever the second call's
wall-clock reading and duration draws are. -/
theorem dummy_update_update_eq {s : DummyState} {now wall wall' : Time}
    {dur dur' : Nat → Time} (h : (alistKeys s.active_motors).Nodup) :
    (s.update now wall dur).update now wall' dur' = s.update now wall dur := by
  have h1 : (alistKeys ((s.update now wall dur).active_motors)).Nodup :=
    nodup_update_active h
  have hqueue : (s.update now wall dur).motor_queue.filter (fun p => ¬ now ≥ p.2) =
      (s.update now wall dur).motor_queue := by
    refine List.filter_eq_self.mpr (fun p hp => ?_)
    rw [update_motor_queue] at hp
    exact (List.mem_filter.mp hp).2
  have hdue : (s.update now wall dur).dueList now = [] := by
    refine List.filter_eq_nil_iff.mpr (fun p hp => ?_)
    rw [update_motor_queue] at hp
    have h2 := (List.mem_filter.mp hp).2
    simpa using h2
  have hAA : (s.update now wall dur).activeAfterInserts now wall' dur' =
      (s.update now wall dur).active_motors := by
    unfold DummyState.activeAfterInserts
    rw [hdue]
    rfl
  have hdeact : ((s.update now wall dur).active_motors.filter
      (fun p => now ≥ p.2)) = [] := by
    refine List.filter_eq_nil_iff.mpr (fun p hp => ?_)
    have := mem_update_active_not_due h hp
    simpa using this
  show DummyState.mk _ _ = _
  rw [hAA, hdeact]
  show DummyState.mk ((s.update now wall dur).active_motors)
    ((s.update now wall dur).motor_queue.filter (fun p => ¬ now ≥ p.2)) = _
  rw [hqueue]

/-- Core draining invariant: over a monotone tick sequence ending at `tN`,
a sorted queue emits exactly its entries with `scheduled_time ≤ tN`, in
queue order, and retains exactly the strictly-later entries. -/
theorem runTicks_log_char :
    ∀ (ts : List (Time × Time)) (tN wN : Time) (s : DummyState) (dur : Nat → Time),
      TimeSorted s.motor_queue →
      (ts ++ [(tN, wN)]).Pairwise (fun a b => a.1 ≤ b.1) →
      s.energizedLog (ts ++ [(tN, wN)]) dur = s.motor_queue.filter (fun p => tN ≥ p.2) ∧
      (s.runTicks (ts ++ [(tN, wN)]) dur).motor_queue =
        s.motor_queue.filter (fun p => ¬ tN ≥ p.2) := by
  intro ts
  induction ts with
  | nil =>
    intro tN wN s dur hs hp
    constructor
    · show s.dueList tN ++ [] = _
      simp [DummyState.dueList]
    · exact update_motor_queue s tN wN dur
  | cons hd ts ih =>
    intro tN wN s dur hs hp
    obtain ⟨t1, w1⟩ := hd
    obtain ⟨hhd, htail⟩ := List.pairwise_cons.mp hp
    have ht1N : t1 ≤ tN := hhd (tN, wN) (by simp)
    have hq1 : (s.update t1 w1 dur).motor_queue =
        s.motor_queue.filter (fun p => ¬ t1 ≥ p.2) := update_motor_queue s t1 w1 dur
    have hs1 : TimeSorted (s.update t1 w1 dur).motor_queue := by
      rw [hq1]; exact hs.filter _
    obtain ⟨ihlog, ihq⟩ := ih tN wN (s.update t1 w1 dur) dur hs1 htail
    constructor
    · show s.dueList t1 ++ (s.update t1 w1 dur).energizedLog (ts ++ [(tN, wN)]) dur = _
      rw [ihlog, hq1]
      exact (filter_le_split hs ht1N).symm
    · show ((s.update t1 w1 dur).runTicks (ts ++ [(tN, wN)]) dur).motor_queue = _
      rw [ihq, hq1, List.filter_filter]
      refine List.filter_congr (fun p _ => ?_)
      by_cases hc : tN ≥ p.2
      · simp [hc, decide_eq_true_eq]
      · have hc1 : ¬ t1 ≥ p.2 := fun hge => hc (le_trans hge ht1N)
        simp [hc, hc1]

/-! ### Queues built by enqueueing -/

theorem foldl_enqueue_perm :
    ∀ (es : List (Nat × Time)) (s : DummyState),
      ((es.foldl (fun t p => t.enqueue p.1 p.2) s).motor_queue).Perm
        (s.motor_queue ++ es) := by
  intro es
  induction es with
  | nil => intro s; simp
  | cons e es ih =>
    intro s
    have h1 := ih (s.enqueue e.1 e.2)
    have h2 : ((s.enqueue e.1 e.2).motor_queue ++ es).Perm (s.motor_queue ++ e :: es) := by
      have hq : (s.enqueue e.1 e.2).motor_queue = sortByTime (s.motor_queue ++ [e]) := rfl
      rw [hq]
      have h3 : (sortByTime (s.motor_queue ++ [e]) ++ es).Perm
          ((s.motor_queue ++ [e]) ++ es) :=
        (sortByTime_perm (s.motor_queue ++ [e])).append_right es
      have h4 : (s.motor_queue ++ [e]) ++ es = s.motor_queue ++ e :: es := by
        simp
      rw [h4] at h3
      exact h3
    exact h1.trans h2

theorem foldl_enqueue_sorted :
    ∀ (es : List (Nat × Time)) (s : DummyState), TimeSorted s.motor_queue →
      TimeSorted ((es.foldl (fun t p => t.enqueue p.1 p.2) s).motor_queue) := by
  intro es
  induction es with
  | nil => intro s h; exact h
  | cons e es ih =>
    intro s _
    exact ih (s.enqueue e.1 e.2) (timeSorted_sortByTime _)

theorem foldl_enqueue_active :
    ∀ (es : List (Nat × Time)) (s : DummyState),
      (es.foldl (fun t p => t.enqueue p.1 p.2) s).active_motors = s.active_motors := by
  intro es
  induction es with
  | nil => intro s; rfl
  | cons e es ih => intro s; exact ih (s.enqueue e.1 e.2)

/-! ### Optimized controller drain lemmas -/

theorem optDrain_tail_not_due :
    ∀ (q : List (Time × Nat)) (active : List Nat) (now : Time),
      (optDrain active q now).2 = [] ∨
      ∃ t m rest, (optDrain active q now).2 = (t, m) :: rest ∧ ¬ t ≤ now := by
  intro q
  induction q with
  | nil => intro active now; left; rfl
  | cons hd rest ih =>
    intro active now
    obtain ⟨t, m⟩ := hd
    by_cases h : t ≤ now
    · simpa [optDrain, h] using ih (active.erase m) now
    · right
      exact ⟨t, m, rest, by simp [optDrain, h], h⟩

theorem optDrain_idem (active : List Nat) (q : List (Time × Nat)) (now : Time) :
    optDrain (optDrain active q now).1 (optDrain active q now).2 now =
      optDrain active q now := by
  rcases optDrain_tail_not_due q active now with h | ⟨t, m, rest, h, ht⟩
  · rw [h]
    show ((optDrain active q now).1, ([] : List (Time × Nat))) = optDrain active q now
    rw [← h]
  · rw [h]
    simp only [optDrain, ht, if_false]
    rw [← h]

theorem opt_update_update_eq (s : OptState) (now : Time) :
    (s.update now).update now = s.update now := by
  show OptState.mk _ _ _ = _
  unfold OptState.update
  simp only
  rw [optDrain_idem]

/-! ### Real controller characterization -/

theorem deactivate_motor_eq (s : RealState) (m : Nat) (ok : Bool) :
    s.deactivate_motor m ok = s := by
  cases ok <;> simp [RealState.deactivate_motor, setThrottle]

theorem activate_motor_fail (s : RealState) (m : Nat) (wall d : Time) :
    s.activate_motor m wall d false = s := by
  simp [RealState.activate_motor, setThrottle]

theorem activate_motor_nohw {s : RealState} (m : Nat) (wall d : Time) (ok : Bool)
    (hhw : s.hardware_available = false) : s.activate_motor m wall d ok = s := by
  unfold RealState.activate_motor
  rw [if_pos]
  left
  simp [hhw]

theorem activate_motor_ok {s : RealState} {m : Nat} (wall d : Time)
    (hhw : s.hardware_available = true) (hm : m < s.numMotors) :
    s.activate_motor m wall d true =
      { s with active_motors := alistInsert m (wall + d) s.active_motors } := by
  have hcond : ¬ (¬ s.hardware_available = true ∨ m ≥ s.numMotors) := by
    push_neg
    exact ⟨hhw, hm⟩
  unfold RealState.activate_motor
  rw [if_neg hcond]
  rfl

theorem real_activate_fold (wall : Time) (dur : Nat → Time) :
    ∀ (l : List (Nat × Nat)) (s1 : RealState), s1.hardware_available = true →
      (∀ q ∈ l, q.2 < s1.numMotors) →
      l.foldl (fun t q => t.activate_motor q.2 wall (dur q.1) true) s1 =
        { s1 with active_motors :=
            l.foldl (fun a q => alistInsert q.2 (wall + dur q.1) a) s1.active_motors } := by
  intro l
  induction l with
  | nil => intro s1 _ _; rfl
  | cons q l ih =>
    intro s1 hhw hn
    rw [List.foldl_cons, List.foldl_cons,
      activate_motor_ok wall (dur q.1) hhw (hn q (List.mem_cons_self _ _))]
    exact ih _ hhw (fun r hr => hn r (List.mem_cons_of_mem _ hr))

theorem real_activate_fold_nohw (wall : Time) (dur : Nat → Time) (aOk : Nat → Bool) :
    ∀ (l : List (Nat × Nat)) (s1 : RealState), s1.hardware_available = false →
      l.foldl (fun t q => t.activate_motor q.2 wall (dur q.1) (aOk q.1)) s1 = s1 := by
  intro l
  induction l with
  | nil => intro s1 _; rfl
  | cons q l ih =>
    intro s1 hhw
    rw [List.foldl_cons, activate_motor_nohw _ _ _ _ hhw]
    exact ih s1 hhw

theorem real_deact_fold_clean :
    ∀ (l : List (Nat × Nat)) (s2 : RealState),
      l.foldl (fun t q => { t with active_motors := alistErase q.2 t.active_motors }) s2 =
      { s2 with active_motors :=
          l.foldl (fun a q => alistErase q.2 a) s2.active_motors } := by
  intro l
  induction l with
  | nil => intro s2; rfl
  | cons q l ih =>
    intro s2
    rw [List.foldl_cons, List.foldl_cons]
    exact ih _

theorem foldl_enumFrom_snd {α β : Type} (f : α → β → α) :
    ∀ (l : List β) (n : Nat) (a : α),
      (l.enumFrom n).foldl (fun x q => f x q.2) a = l.foldl f a := by
  intro l
  induction l with
  | nil => intro n a; rfl
  | cons b l ih =>
    intro n a
    show (l.enumFrom (n + 1)).foldl (fun x q => f x q.2) (f a b) = _
    rw [ih]
    rfl

theorem foldl_enum_snd {α β : Type} (f : α → β → α) (l : List β) (a : α) :
    l.enum.foldl (fun x q => f x q.2) a = l.foldl f a :=
  foldl_enumFrom_snd f l 0 a

theorem activate_motor_queue (s : RealState) (m : Nat) (wall d : Time) (ok : Bool) :
    (s.activate_motor m wall d ok).motor_queue = s.motor_queue := by
  unfold RealState.activate_motor
  split
  · rfl
  · cases ok <;> rfl

theorem real_activate_fold_queue (wall : Time) (dur : Nat → Time) (aOk : Nat → Bool) :
    ∀ (l : List (Nat × Nat)) (s1 : RealState),
      (l.foldl (fun t q => t.activate_motor q.2 wall (dur q.1) (aOk q.1)) s1).motor_queue =
        s1.motor_queue := by
  intro l
  induction l with
  | nil => intro s1; rfl
  | cons q l ih =>
    intro s1
    rw [List.foldl_cons, ih, activate_motor_queue]

theorem foldl_enum_erase (l : List Nat) (a : List (Nat × Time)) :
    l.enum.foldl (fun x q => alistErase q.2 x) a = l.foldl (fun x m => alistErase m x) a :=
  foldl_enum_snd (fun x m => alistErase m x) l a

/-- Every `update` of the real controller, whatever the sink oracles say,
finishes its tick: the queue is drained of exactly the due events. -/
theorem real_update_queue (s : RealState) (now wall : Time) (dur : Nat → Time)
    (aOk dOk : Nat → Bool) :
    (s.update now wall dur aOk dOk).motor_queue =
      s.motor_queue.filter (fun p => ¬ now ≥ p.2) := by
  unfold RealState.update
  simp only [deactivate_motor_eq]
  rw [real_deact_fold_clean]
  rw [real_activate_fold_queue]

/-- With hardware available, every throttle call succeeding, and every
queued motor id in range, one `update` of
`real_motor_controller.RealMotorController` performs exactly the logical
transitions of `DummyMotorController.update` on its `active_motors` and
`motor_queue`. -/
theorem real_update_hw_true_char (s : RealState) (now wall : Time) (dur : Nat → Time)
    (dOk : Nat → Bool) (hhw : s.hardware_available = true)
    (hnum : ∀ p ∈ s.motor_queue, p.1 < s.numMotors) :
    s.update now wall dur (fun _ => true) dOk =
      { s with
        active_motors :=
          ((DummyState.mk s.active_motors s.motor_queue).update now wall dur).active_motors,
        motor_queue :=
          ((DummyState.mk s.active_motors s.motor_queue).update now wall dur).motor_queue } := by
  have hn : ∀ q ∈ ((s.motor_queue.filter (fun p => now ≥ p.2)).map Prod.fst).enum,
      q.2 < ({ s with motor_queue :=
        s.motor_queue.filter (fun p => ¬ now ≥ p.2) } : RealState).numMotors := by
    intro q hq
    have hq2 : q.2 ∈ (s.motor_queue.filter (fun p => now ≥ p.2)).map Prod.fst := by
      have := List.mem_map_of_mem Prod.snd hq
      rwa [List.enum_map_snd] at this
    obtain ⟨p, hp, hpq⟩ := List.mem_map.mp hq2
    have hpmem : p ∈ s.motor_queue := List.mem_of_mem_filter hp
    exact hpq ▸ hnum p hpmem
  unfold RealState.update DummyState.update DummyState.activeAfterInserts DummyState.dueList
  simp only [deactivate_motor_eq]
  have hfold := real_activate_fold wall dur
    ((s.motor_queue.filter (fun p => now ≥ p.2)).map Prod.fst).enum
    { s with motor_queue := s.motor_queue.filter (fun p => ¬ now ≥ p.2) } hhw hn
  rw [hfold, real_deact_fold_clean, foldl_enum_erase]

/-- With hardware unavailable, `update` never records an activation: the
queue still drains, the deactivation pass still deletes expired entries,
but no motor is ever added to `active_motors`. -/
theorem real_update_hw_false_char (s : RealState) (now wall : Time) (dur : Nat → Time)
    (aOk dOk : Nat → Bool) (hhw : s.hardware_available = false) :
    s.update now wall dur aOk dOk =
      { s with
        active_motors :=
          ((s.active_motors.filter (fun p => now ≥ p.2)).map Prod.fst).foldl
            (fun a m => alistErase m a) s.active_motors,
        motor_queue := s.motor_queue.filter (fun p => ¬ now ≥ p.2) } := by
  unfold RealState.update
  simp only [deactivate_motor_eq]
  have hfold := real_activate_fold_nohw wall dur aOk
    ((s.motor_queue.filter (fun p => now ≥ p.2)).map Prod.fst).enum
    { s with motor_queue := s.motor_queue.filter (fun p => ¬ now ≥ p.2) } hhw
  rw [hfold, real_deact_fold_clean, foldl_enum_erase]

/-! ### Invariant preservation -/

theorem activate_for_char_active (s : DummyState) (c : Char) (t : Time) :
    (s.activate_for_char c t).active_motors = s.active_motors := by
  unfold DummyState.activate_for_char
  cases getMotorForChar c <;> rfl

theorem activate_for_chars_active (s : DummyState) (l : List (Char × Time)) :
    (s.activate_for_chars l).active_motors = s.active_motors := by
  unfold DummyState.activate_for_chars
  split <;> rfl

theorem dummy_exec_nodup {s : DummyState} (op : DummyOp)
    (h : (alistKeys s.active_motors).Nodup) :
    (alistKeys (s.exec op).active_motors).Nodup := by
  cases op with
  | afc c t => rwa [DummyState.exec, activate_for_char_active]
  | afcs l => rwa [DummyState.exec, activate_for_chars_active]
  | enq m t => exact h
  | upd now wall dur => exact nodup_update_active h

theorem dummy_execList_nodup :
    ∀ (ops : List DummyOp) (s : DummyState), (alistKeys s.active_motors).Nodup →
      (alistKeys (s.execList ops).active_motors).Nodup := by
  intro ops
  induction ops with
  | nil => intro s h; exact h
  | cons op ops ih =>
    intro s h
    exact ih (s.exec op) (dummy_exec_nodup op h)

theorem nodup_setAdd {m : Nat} {l : List Nat} (h : l.Nodup) : (setAdd m l).Nodup := by
  unfold setAdd
  split
  · exact h
  · next hm => simp [List.nodup_append, h, hm]

theorem optDrain_nodup :
    ∀ (q : List (Time × Nat)) (active : List Nat) (now : Time), active.Nodup →
      (optDrain active q now).1.Nodup := by
  intro q
  induction q with
  | nil => intro active now h; exact h
  | cons hd rest ih =>
    intro active now h
    obtain ⟨t, m⟩ := hd
    by_cases hc : t ≤ now
    · simpa [optDrain, hc] using ih (active.erase m) now (h.erase m)
    · simpa [optDrain, hc] using h

theorem opt_afc_nodup {s : OptState} {c : Char} {now : Time}
    (h : s.active_motors.Nodup) : ((s.activate_for_char c now).active_motors).Nodup := by
  unfold OptState.activate_for_char OptState.activateC
  cases hres : optResolveChar c with
  | none => simpa using h
  | some m =>
    simp only
    split
    · exact h
    · exact nodup_setAdd h

theorem opt_exec_nodup {s : OptState} (op : OptOp) (h : s.active_motors.Nodup) :
    ((s.exec op).active_motors).Nodup := by
  cases op with
  | afc c now => exact opt_afc_nodup h
  | upd now => exact optDrain_nodup _ _ _ h

theorem opt_execList_nodup :
    ∀ (ops : List OptOp) (s : OptState), s.active_motors.Nodup →
      ((s.execList ops).active_motors).Nodup := by
  intro ops
  induction ops with
  | nil => intro s h; exact h
  | cons op ops ih =>
    intro s h
    exact ih (s.exec op) (opt_exec_nodup op h)

/-- The deactivation pass on a duplicate-free dict removes exactly the
expired entries. -/
theorem erase_due_filter {a : List (Nat × Time)} {now : Time}
    (h : (alistKeys a).Nodup) :
    ((a.filter (fun p => now ≥ p.2)).map Prod.fst).foldl (fun x m => alistErase m x) a =
      a.filter (fun p => ¬ now ≥ p.2) := by
  rw [foldl_alistErase_eq_filter h]
  refine List.filter_congr (fun p hp => ?_)
  have hiff : (p.1 ∈ (a.filter (fun q => now ≥ q.2)).map Prod.fst) ↔ now ≥ p.2 := by
    constructor
    · intro hmem
      obtain ⟨q, hq, hqp⟩ := List.mem_map.mp hmem
      have hq1 : q ∈ a := List.mem_of_mem_filter hq
      have hq2 : now ≥ q.2 := by simpa using List.of_mem_filter hq
      have : q = p := alistKeys_nodup_inj h hq1 hp hqp
      exact this ▸ hq2
    · intro hge
      exact List.mem_map_of_mem Prod.fst (List.mem_filter.mpr ⟨hp, by simpa using hge⟩)
  by_cases hc : now ≥ p.2
  · simp [hiff.mpr hc, hc]
  · have hnm : p.1 ∉ (a.filter (fun q => now ≥ q.2)).map Prod.fst :=
      fun hmem => hc (hiff.mp hmem)
    simp [hnm, hc]

/-! ### Claim theorems -/

/-- C1: the duration-policy bounded-energized-duration property fails on
the code as shipped.  A motor energized by `update(now = 10)` (playback
clock, tenths of a second) draws duration `1`, but `_activate_motor`
computes the expiry from `time.time()` (wall clock, here `10^9`), so the
subsequent `update(now = 11)` — the first tick with
`now ≥ t0 + d = 11` — does not remove the motor from `active_motors`:
its recorded expiry is `10^9 + 1`. -/
theorem c1_wall_clock_expiry_bug :
    ((DummyState.mk [] [(0, 10)]).update 10 1000000000 (fun _ => 1)).active_motors
        = [(0, 1000000001)] ∧
    (((DummyState.mk [] [(0, 10)]).update 10 1000000000 (fun _ => 1)).update 11 1000000001
        (fun _ => 1)).active_motors = [(0, 1000000001)] := by
  decide

/-- C2 counterexample: with hardware available and a pending due event for
motor 0, an `update` whose activation throttle call raises leaves
`active_motors` without the motor — the logical transition is skipped, not
optimistically assumed — whereas the same `update` with a succeeding sink
records `(0, expiry)`. -/
theorem c2_sink_failure_counterexample :
    (RealState.update (RealState.mk true 32 [] [(0, 5)]) 5 5 (fun _ => 1) (fun _ => false)
        (fun _ => true)).active_motors = [] ∧
    (RealState.update (RealState.mk true 32 [] [(0, 5)]) 5 5 (fun _ => 1) (fun _ => true)
        (fun _ => true)).active_motors = [(0, 6)] := by
  decide

/-- C2 (amended): a raising sink call is caught at the sink boundary and
the tick is not aborted — the queue is drained of exactly the due events
whatever the oracles say — and a failed de-energize call still removes the
motor from `active_motors` exactly as if it had succeeded (the state is
independent of the deactivation oracle); but a failed energize call leaves
the controller state unchanged: the activated motor is NOT recorded in
`active_motors`. -/
theorem c2_amended_sink_failure_containment :
    (∀ (s : RealState) (m : Nat) (wall d : Time),
        s.activate_motor m wall d false = s) ∧
    (∀ (s : RealState) (now wall : Time) (dur : Nat → Time) (aOk dOk dOk' : Nat → Bool),
        s.update now wall dur aOk dOk = s.update now wall dur aOk dOk') ∧
    (∀ (s : RealState) (now wall : Time) (dur : Nat → Time) (aOk dOk : Nat → Bool),
        (s.update now wall dur aOk dOk).motor_queue =
          s.motor_queue.filter (fun p => ¬ now ≥ p.2)) := by
  refine ⟨activate_motor_fail, ?_, real_update_queue⟩
  intro s now wall dur aOk dOk dOk'
  unfold RealState.update
  simp only [deactivate_motor_eq]

/-- C4 counterexample: the computed map of `DummyMotorController` sends
`'0'` to `26` (its index in the alphabet string, mod 32) while the
hard-coded `char_to_motor` of the hardware variants sends `'0'` to `3` —
the two variants do not define the same function on `[a-z0-9]`. -/
theorem c4_digit_mapping_counterexample :
    getMotorForChar '0' = some 26 ∧ optResolveChar '0' = some 3 ∧
    getMotorForChar '0' ≠ optResolveChar '0' := by
  decide

/-- C4 (amended): both variants lower-case their input and resolve space
and punctuation to no motor, and they agree on every letter `a`-`z`
(index mod 32); the computed map follows the index-mod-32 rule on every
alphabet character, but the hard-coded map disagrees with it on every
digit (it assigns `'1'..'6' ↦ 26..31`, `'7'..'9','0' ↦ 0..3` instead of
`'0'..'5' ↦ 26..31`, `'6'..'9' ↦ 0..3`). -/
theorem c4_amended_char_mapping :
    (∀ c ∈ "abcdefghijklmnopqrstuvwxyz".toList, getMotorForChar c = optResolveChar c) ∧
    (∀ p ∈ alphabet.enum, getMotorForChar p.2 = some (p.1 % 32)) ∧
    getMotorForChar ' ' = none ∧ optResolveChar ' ' = none ∧
    getMotorForChar '.' = none ∧ optResolveChar '.' = none ∧
    getMotorForChar 'A' = getMotorForChar 'a' ∧ optResolveChar 'A' = optResolveChar 'a' ∧
    (∀ c ∈ "0123456789".toList, getMotorForChar c ≠ optResolveChar c) := by
  decide

/-- C4 witness: the amended agreement instantiated at `'a'`. -/
theorem c4_amended_char_mapping_witness :
    'a' ∈ "abcdefghijklmnopqrstuvwxyz".toList ∧ getMotorForChar 'a' = optResolveChar 'a' :=
  ⟨by decide, c4_amended_char_mapping.1 'a' (by decide)⟩

/-- C6: calling `update` twice with the same `now` performs no additional
activations or deactivations the second time: for the dummy controller
(whose `active_motors` dict has duplicate-free keys) the second call
returns the state of the first unchanged, whatever wall-clock readings
and duration draws it sees, and likewise for the optimized controller's
heap-driven `update`. -/
theorem c6_idempotent_tick :
    (∀ (s : DummyState) (now wall wall' : Time) (dur dur' : Nat → Time),
        (alistKeys s.active_motors).Nodup →
        (s.update now wall dur).update now wall' dur' = s.update now wall dur) ∧
    (∀ (s : OptState) (now : Time), (s.update now).update now = s.update now) :=
  ⟨fun _ _ _ _ _ _ h => dummy_update_update_eq h, opt_update_update_eq⟩

/-- C6 witness: a state with one active motor and one due queue entry,
ticked twice at the same time. -/
theorem c6_idempotent_tick_witness :
    (alistKeys (DummyState.mk [(3, 12)] [(0, 10)]).active_motors).Nodup ∧
    ((DummyState.mk [(3, 12)] [(0, 10)]).update 10 10 (fun _ => 1)).update 10 11 (fun _ => 2)
      = (DummyState.mk [(3, 12)] [(0, 10)]).update 10 10 (fun _ => 1) :=
  ⟨by decide,
    c6_idempotent_tick.1 (DummyState.mk [(3, 12)] [(0, 10)]) 10 10 11 (fun _ => 1)
      (fun _ => 2) (by decide)⟩

/-- C9: a character that resolves to no motor (space, punctuation, any
unmapped character) makes `activate_for_char` a complete no-op in both the
dummy controller and `real_motor_controller.RealMotorController`: the
whole state is returned unchanged and no hardware call is reached. -/
theorem c9_unmapped_char_noop :
    (∀ (s : DummyState) (c : Char) (t : Time),
        getMotorForChar c = none → s.activate_for_char c t = s) ∧
    (∀ (s : RealState) (c : Char) (t : Time),
        getMotorForChar c = none → s.activate_for_char c t = s) := by
  constructor
  · intro s c t h
    unfold DummyState.activate_for_char
    rw [h]
  · intro s c t h
    unfold RealState.activate_for_char
    rw [h]

/-- C9 witness: a space enqueued on a non-empty dummy state and a
non-empty real state changes nothing. -/
theorem c9_unmapped_char_noop_witness :
    getMotorForChar ' ' = none ∧
    (DummyState.mk [(1, 7)] [(2, 9)]).activate_for_char ' ' 4 =
      DummyState.mk [(1, 7)] [(2, 9)] :=
  ⟨by decide, c9_unmapped_char_noop.1 (DummyState.mk [(1, 7)] [(2, 9)]) ' ' 4 (by decide)⟩

/-- C3: for any batch of enqueued events followed by ticks at monotone
times ending at `tN`, the energized log is exactly the queue's events with
`scheduled_time ≤ tN` in queue order — a permutation of the enqueued
events due by `tN`, each exactly once, in non-decreasing scheduled-time
order; no tick drains an event scheduled after its `now`; and the
strictly-future events remain in the queue, still time-sorted. -/
theorem c3_exactly_once_ordered_draining
    (es : List (Nat × Time)) (ts : List (Time × Time)) (tN wN : Time)
    (dur : Nat → Time) (s0 : DummyState)
    (hs0 : s0 = es.foldl (fun t p => t.enqueue p.1 p.2) DummyState.init)
    (hmono : (ts ++ [(tN, wN)]).Pairwise (fun a b => a.1 ≤ b.1)) :
    (s0.energizedLog (ts ++ [(tN, wN)]) dur).Perm (es.filter (fun p => tN ≥ p.2)) ∧
    s0.energizedLog (ts ++ [(tN, wN)]) dur = s0.motor_queue.filter (fun p => tN ≥ p.2) ∧
    TimeSorted (s0.energizedLog (ts ++ [(tN, wN)]) dur) ∧
    (∀ (s : DummyState) (now : Time), ∀ p ∈ s.dueList now, p.2 ≤ now) ∧
    (s0.runTicks (ts ++ [(tN, wN)]) dur).motor_queue =
      s0.motor_queue.filter (fun p => ¬ tN ≥ p.2) ∧
    TimeSorted ((s0.runTicks (ts ++ [(tN, wN)]) dur).motor_queue) := by
  have hsort : TimeSorted s0.motor_queue := by
    rw [hs0]
    exact foldl_enqueue_sorted es DummyState.init List.Pairwise.nil
  have hperm : s0.motor_queue.Perm es := by
    rw [hs0]
    simpa using foldl_enqueue_perm es DummyState.init
  obtain ⟨hlog, hq⟩ := runTicks_log_char ts tN wN s0 dur hsort hmono
  refine ⟨?_, hlog, ?_, ?_, hq, ?_⟩
  · rw [hlog]
    exact hperm.filter _
  · rw [hlog]
    exact hsort.filter _
  · intro s now p hp
    exact dueList_mem_le hp
  · rw [hq]
    exact hsort.filter _

/-- C3 witness: two events enqueued out of order, ticked at times 10 and
15; the log is a permutation of the events due by 15 and the queue keeps
the strictly-later event. -/
theorem c3_exactly_once_ordered_draining_witness :
    ((DummyState.mk [] [(1, 10), (0, 20)]).energizedLog [(10, 100), (15, 105)]
        (fun _ => 1)).Perm ([(0, 20), (1, 10)].filter (fun p => (15 : Time) ≥ p.2)) ∧
    ((DummyState.mk [] [(1, 10), (0, 20)]).runTicks [(10, 100), (15, 105)]
        (fun _ => 1)).motor_queue =
      (DummyState.mk [] [(1, 10), (0, 20)]).motor_queue.filter
        (fun p => ¬ (15 : Time) ≥ p.2) := by
  have h := c3_exactly_once_ordered_draining [(0, 20), (1, 10)] [(10, 100)] 15 105
    (fun _ => 1) (DummyState.mk [] [(1, 10), (0, 20)]) (by decide) (by decide)
  exact ⟨h.1, h.2.2.2.2.1⟩

/-- C7: after any sequence of operations (single or batched enqueues and
updates) from the initial state, `active_motors` holds at most one entry
per motor id, in both the dummy controller (duplicate-free dict keys; a
re-activation replaces the existing expiry in place) and the optimized
controller (duplicate-free set). -/
theorem c7_at_most_one_active :
    (∀ ops : List DummyOp,
        (alistKeys (DummyState.init.execList ops).active_motors).Nodup) ∧
    (∀ ops : List OptOp, ((OptState.init.execList ops).active_motors).Nodup) :=
  ⟨fun ops => dummy_execList_nodup ops DummyState.init (by decide),
   fun ops => opt_execList_nodup ops OptState.init (by decide)⟩

/-- C8 counterexample: with hardware unavailable the real controller's
`update` records no activation — after draining a due event for motor 0
its `active_motors` is empty — while the hardware-present run records
`(0, expiry)`: the active-motor state does not evolve identically. -/
theorem c8_no_hardware_counterexample :
    (RealState.update (RealState.mk false 0 [] [(0, 5)]) 5 5 (fun _ => 1) (fun _ => true)
        (fun _ => true)).active_motors = [] ∧
    (RealState.update (RealState.mk true 32 [] [(0, 5)]) 5 5 (fun _ => 1) (fun _ => true)
        (fun _ => true)).active_motors = [(0, 6)] := by
  decide

/-- C8 (amended): with hardware unavailable, `update` raises nothing and
still drains the queue and expires active entries on schedule, but it
performs no `IDLE → ENERGIZED` transition — no motor is ever added to
`active_motors`; the identical logical evolution the spec promises is
provided by the dummy controller instead, whose `update` is
state-for-state identical to the hardware-present real controller under
the same duration draws and a succeeding sink. -/
theorem c8_amended_graceful_degradation :
    (∀ (s : RealState) (now wall : Time) (dur : Nat → Time) (aOk dOk : Nat → Bool),
        s.hardware_available = false → (alistKeys s.active_motors).Nodup →
        (s.update now wall dur aOk dOk).active_motors =
          s.active_motors.filter (fun p => ¬ now ≥ p.2) ∧
        (s.update now wall dur aOk dOk).motor_queue =
          s.motor_queue.filter (fun p => ¬ now ≥ p.2)) ∧
    (∀ (s : RealState) (now wall : Time) (dur : Nat → Time) (dOk : Nat → Bool),
        s.hardware_available = true → (∀ p ∈ s.motor_queue, p.1 < s.numMotors) →
        (s.update now wall dur (fun _ => true) dOk).active_motors =
          ((DummyState.mk s.active_motors s.motor_queue).update now wall dur).active_motors ∧
        (s.update now wall dur (fun _ => true) dOk).motor_queue =
          ((DummyState.mk s.active_motors s.motor_queue).update now wall dur).motor_queue) := by
  constructor
  · intro s now wall dur aOk dOk hhw hnd
    rw [real_update_hw_false_char s now wall dur aOk dOk hhw]
    exact ⟨erase_due_filter hnd, rfl⟩
  · intro s now wall dur dOk hhw hnum
    rw [real_update_hw_true_char s now wall dur dOk hhw hnum]
    exact ⟨rfl, rfl⟩

/-- C8 witness: the hardware-unavailable characterization at a concrete
state with one active entry (expired) and one due queue event. -/
theorem c8_amended_graceful_degradation_witness :
    (RealState.mk false 0 [(2, 3)] [(0, 5)]).hardware_available = false ∧
    (alistKeys (RealState.mk false 0 [(2, 3)] [(0, 5)]).active_motors).Nodup ∧
    ((RealState.mk false 0 [(2, 3)] [(0, 5)]).update 5 5 (fun _ => 1) (fun _ => true)
        (fun _ => true)).active_motors =
      (RealState.mk false 0 [(2, 3)] [(0, 5)]).active_motors.filter
        (fun p => ¬ (5 : Time) ≥ p.2) :=
  ⟨by decide, by decide,
    (c8_amended_graceful_degradation.1 (RealState.mk false 0 [(2, 3)] [(0, 5)]) 5 5
      (fun _ => 1) (fun _ => true) (fun _ => true) (by decide) (by decide)).1⟩

/-- C10: re-activating a motor that is already in `active_motors`
overwrites its expiry in place with `wall_clock + fresh duration`; when
that value is smaller than the stored expiry the energized period
shortens, and a subsequent `update` at the new (earlier) expiry already
de-energizes the motor; no cooldown guards this path in the dummy
variant. -/
theorem c10_reactivation_shortens_expiry
    (s : DummyState) (m : Nat) (e tq now wall now2 wall2 : Time) (dur dur2 : Nat → Time)
    (hnd : (alistKeys s.active_motors).Nodup)
    (hact : alookup m s.active_motors = some e)
    (hq : s.motor_queue = [(m, tq)])
    (hdue : tq ≤ now)
    (hd1 : 1 ≤ dur 0) (hd3 : dur 0 ≤ 3)
    (hfresh : now < wall + dur 0)
    (hshort : wall + dur 0 < e)
    (hnow2 : wall + dur 0 ≤ now2) :
    alookup m (s.update now wall dur).active_motors = some (wall + dur 0) ∧
    wall + dur 0 < e ∧
    alookup m ((s.update now wall dur).update now2 wall2 dur2).active_motors = none := by
  have hAA : s.activeAfterInserts now wall dur =
      alistInsert m (wall + dur 0) s.active_motors := by
    unfold DummyState.activeAfterInserts DummyState.dueList
    rw [hq]
    simp [List.filter_cons, hdue, List.enum, List.enumFrom]
  have h1 : alookup m (s.update now wall dur).active_motors = some (wall + dur 0) := by
    rw [update_active_char hnd, hAA]
    exact alookup_filter_of_keep alookup_alistInsert_self
      (by simpa using not_le.mpr hfresh)
  have hnd1 : (alistKeys (s.update now wall dur).active_motors).Nodup :=
    nodup_update_active hnd
  have hq1 : (s.update now wall dur).motor_queue = [] := by
    rw [update_motor_queue, hq]
    simp [List.filter_cons, hdue]
  have hAA2 : (s.update now wall dur).activeAfterInserts now2 wall2 dur2 =
      (s.update now wall dur).active_motors := by
    unfold DummyState.activeAfterInserts DummyState.dueList
    rw [hq1]
    rfl
  refine ⟨h1, hshort, ?_⟩
  rw [update_active_char hnd1, hAA2]
  exact alookup_filter_of_drop hnd1 h1 (by simpa using hnow2)

/-- C10 witness: motor 0 active until 10 is re-activated at 5 with a
fresh duration 1; its expiry becomes 6, and the tick at 6 removes it four
time units before the original expiry. -/
theorem c10_reactivation_shortens_expiry_witness :
    alookup 0 (DummyState.mk [(0, 10)] [(0, 0)]).active_motors = some 10 ∧
    (alookup 0 ((DummyState.mk [(0, 10)] [(0, 0)]).update 5 5
        (fun _ => 1)).active_motors = some (5 + 1) ∧
      (5 + 1 : Time) < 10 ∧
      alookup 0 (((DummyState.mk [(0, 10)] [(0, 0)]).update 5 5 (fun _ => 1)).update 6 6
          (fun _ => 1)).active_motors = none) :=
  ⟨by decide,
    c10_reactivation_shortens_expiry (DummyState.mk [(0, 10)] [(0, 0)]) 0 10 0 5 5 6 6
      (fun _ => 1) (fun _ => 1) (by decide) (by decide) (by decide) (by decide)
      (by decide) (by decide) (by decide) (by decide) (by decide)⟩

/-! ### Debounce helpers and claim C5 -/

theorem opt_activateC_blocked {s : OptState} {c : Char} {m : Nat} {now last : Time}
    (hres : optResolveChar c = some m)
    (hla : alookup m s.last_activation = some last) (hlt : now - last < 2) :
    s.activateC c now = (s, false) := by
  unfold OptState.activateC
  rw [hres]
  have hb : debounceBlocked s.last_activation m now = true := by
    unfold debounceBlocked
    rw [hla]
    simpa using hlt
  simp [hb]

theorem opt_activateC_proceed {s : OptState} {c : Char} {m : Nat} {now : Time}
    (hres : optResolveChar c = some m)
    (hb : debounceBlocked s.last_activation m now = false) :
    s.activateC c now =
      (OptState.mk (alistInsert m now s.last_activation) (setAdd m s.active_motors)
        (heapInsert (now + 1, m) s.deactivation_queue), true) := by
  unfold OptState.activateC
  rw [hres]
  simp [hb]

theorem realV1_blocked {la : List (Nat × Time)} {c : Char} {m : Nat} {now last : Time}
    {numBoards : Nat} (hres : optResolveChar c = some m)
    (hla : alookup m la = some last) (hlt : now - last < 2) :
    realV1ActivateC la c now numBoards = (la, false) := by
  unfold realV1ActivateC
  rw [hres]
  have hb : debounceBlocked la m now = true := by
    unfold debounceBlocked
    rw [hla]
    simpa using hlt
  simp [hb]

theorem realV1_proceed {la : List (Nat × Time)} {c : Char} {m : Nat} {now : Time}
    {numBoards : Nat} (hres : optResolveChar c = some m)
    (hb : debounceBlocked la m now = false) :
    realV1ActivateC la c now numBoards = (alistInsert m now la, decide (m / 4 < numBoards)) := by
  unfold realV1ActivateC
  rw [hres]
  simp [hb]

/-- C5: in the hardware-facing variants, an activation attempt within the
cooldown (`now - last_activation[m] < 0.2 s`, scaled `< 2`) returns with
no state change and no energize; otherwise it records
`last_activation[m] = now` and energizes.  In particular two attempts for
the same motor at `t` and `t + ε` with `0 ≤ ε < 0.2 s` cause exactly one
energize, from the first attempt — in `OptimizedMotorController` and in
`motor_controller.RealMotorController` (whose energize also requires the
motor's board to be initialized). -/
theorem c5_debounce :
    (∀ (s : OptState) (c : Char) (m : Nat) (now last : Time),
        optResolveChar c = some m → alookup m s.last_activation = some last →
        now - last < 2 → s.activateC c now = (s, false)) ∧
    (∀ (s : OptState) (c : Char) (m : Nat) (now : Time),
        optResolveChar c = some m →
        debounceBlocked s.last_activation m now = false →
        s.activateC c now =
          (OptState.mk (alistInsert m now s.last_activation) (setAdd m s.active_motors)
            (heapInsert (now + 1, m) s.deactivation_queue), true)) ∧
    (∀ (s : OptState) (c : Char) (m : Nat) (now ε : Time),
        optResolveChar c = some m →
        debounceBlocked s.last_activation m now = false →
        0 ≤ ε → ε < 2 →
        (s.activateC c now).2 = true ∧
        (s.activateC c now).1.activateC c (now + ε) = ((s.activateC c now).1, false)) ∧
    (∀ (la : List (Nat × Time)) (c : Char) (m : Nat) (now ε : Time) (numBoards : Nat),
        optResolveChar c = some m → debounceBlocked la m now = false →
        m / 4 < numBoards → 0 ≤ ε → ε < 2 →
        (realV1ActivateC la c now numBoards).2 = true ∧
        realV1ActivateC (realV1ActivateC la c now numBoards).1 c (now + ε) numBoards =
          ((realV1ActivateC la c now numBoards).1, false)) := by
  refine ⟨?_, ?_, ?_, ?_⟩
  · intro s c m now last hres hla hlt
    exact opt_activateC_blocked hres hla hlt
  · intro s c m now hres hb
    exact opt_activateC_proceed hres hb
  · intro s c m now ε hres hb h0 hε
    have hp := opt_activateC_proceed hres hb
    constructor
    · rw [hp]
    · rw [hp]
      have hlt2 : (now + ε) - now < 2 := by
        have hsub : (now + ε) - now = ε := by ring
        rw [hsub]
        exact hε
      exact opt_activateC_blocked hres alookup_alistInsert_self hlt2
  · intro la c m now ε numBoards hres hb hbd h0 hε
    constructor
    · rw [realV1_proceed hres hb]
      simpa using hbd
    · rw [realV1_proceed hres hb]
      have hlt2 : (now + ε) - now < 2 := by
        have hsub : (now + ε) - now = ε := by ring
        rw [hsub]
        exact hε
      exact realV1_blocked hres alookup_alistInsert_self hlt2

/-- C5 witness: motor 0 activated at time 0 (energized), the repeat
attempt at time 1 (within the cooldown 2) is suppressed. -/
theorem c5_debounce_witness :
    optResolveChar 'a' = some 0 ∧
    debounceBlocked OptState.init.last_activation 0 0 = false ∧
    (0 : Time) ≤ 1 ∧ (1 : Time) < 2 ∧
    ((OptState.init.activateC 'a' 0).2 = true ∧
      (OptState.init.activateC 'a' 0).1.activateC 'a' (0 + 1) =
        ((OptState.init.activateC 'a' 0).1, false)) :=
  ⟨by decide, by decide, by decide, by decide,
    c5_debounce.2.2.1 OptState.init 'a' 0 0 1 (by decide) (by decide) (by decide)
      (by decide)⟩
